import Mathlib

/-!
Verification of the dpar transition-based dependency parsing core:
a shallow embedding of the configuration data model, the arc-standard
transition system, the static oracle, the feature-address resolution and
hashing, and the guide selection loop, with theorems checking the
behaviours the specification describes.
-/

set_option autoImplicit false

namespace Dpar

/-- A labeled dependency arc `(head, relation, dependent)`,
mirroring `system.Dependency`. Token positions are `uint` in Go,
modelled as `Nat`. -/
structure Dependency where
  head : Nat
  relation : String
  dependent : Nat
deriving DecidableEq, Repr

/-- Modelled from the spec: the `system.Configuration` struct itself is not
among the given source files (only its users are), so its shape is taken
from the spec's data model and from the field accesses in `parser.go`,
`addr.go`: `Stack` and `Buffer` hold token indices (stack top = last
element, buffer front = first element), `Arcs` accumulates dependencies in
attachment order, and `Tokens`/`Tags`/`Features` give the per-token layers
(index 0 = ROOT). Token layers are total maps so that lookups stay total. -/
structure Configuration where
  stack : List Nat
  buffer : List Nat
  arcs : List Dependency
  tokens : Nat → String
  tags : Nat → String
  feats : Nat → Option (String → Option String)

/-- Embeds `c.Stack[stackSize-1]`: the stack top, as read by the Go code. -/
def stackTop (c : Configuration) : Nat :=
  c.stack.getD (c.stack.length - 1) 0

/-- Embeds `c.Buffer[0]`: the buffer front, as read by the Go code. -/
def bufferFront (c : Configuration) : Nat :=
  c.buffer.headD 0

/-- Modelled from the spec: `Configuration.AddDependency` is not among the
given source files; the spec says it inserts the dependency into `Arcs`
(insertion order reflecting attachment order). -/
def addDependency (c : Configuration) (d : Dependency) : Configuration :=
  { c with arcs := c.arcs ++ [d] }

/-- Modelled from the spec: `Configuration.Head` is not among the given
source files; the spec says it returns the dependency currently assigned to
the given dependent, if any (at most one head per dependent). -/
def headOf (c : Configuration) (token : Nat) : Option Dependency :=
  c.arcs.find? (fun d => d.dependent == token)

/-- Modelled from the spec: `Configuration.LeftmostDependent` is not among
the given source files; the spec says the k-th leftmost dependent of a
token is computed from current token positions ("leftmost" = smallest
token index), returning none when fewer than k+1 left-side dependents
exist. -/
def leftmostDependent (c : Configuration) (token k : Nat) : Option Nat :=
  (((c.arcs.filter (fun d => d.head == token && d.dependent < token)).map
      Dependency.dependent).mergeSort (· ≤ ·)).get? k

/-- Modelled from the spec: `Configuration.RightmostDependent` is not among
the given source files; symmetric to `leftmostDependent` with "rightmost"
= largest token index. -/
def rightmostDependent (c : Configuration) (token k : Nat) : Option Nat :=
  (((c.arcs.filter (fun d => d.head == token && token < d.dependent)).map
      Dependency.dependent).mergeSort (· ≥ ·)).get? k

/-- Modelled from the spec: `Configuration.Dependencies` is not among the
given source files; the spec says the parse result is the accumulated
dependency set. -/
def dependencies (c : Configuration) : List Dependency :=
  c.arcs

/-- Modelled from the spec: `NewConfiguration` is not among the given
source files; the spec says construction yields an empty stack and a
buffer holding all token indices in left-to-right order (index 0 = ROOT
supplied implicitly, real tokens at 1..n). -/
def initialConfiguration (n : Nat) (tokens tags : Nat → String)
    (feats : Nat → Option (String → Option String)) : Configuration :=
  { stack := [], buffer := List.range (n + 1), arcs := [],
    tokens := tokens, tags := tags, feats := feats }

/-- The arc-standard transitions: the closed union of `asShift`,
`asLeftArc` and `asRightArc` from `parser.go`. -/
inductive Transition where
  | asShift : Transition
  | asLeftArc (relation : String) : Transition
  | asRightArc (relation : String) : Transition
deriving DecidableEq, Repr

/-- The `IsPossible` legality predicates of the three transition types,
read off `parser.go` (`asLeftArc.IsPossible`, `asRightArc.IsPossible`,
`asShift.IsPossible`). -/
def isPossible : Transition → Configuration → Bool
  | .asLeftArc _, c =>
      c.stack.length != 0 && (c.buffer.length != 0 && stackTop c != 0)
  | .asRightArc _, c => c.stack.length != 0 && c.buffer.length != 0
  | .asShift, c => c.buffer.length != 0

/-- The `Apply` state mutations of the three transition types, read off
`parser.go`. `asShift` moves the buffer front onto the stack;
`asLeftArc` adds (buffer front, rel, stack top) and pops the stack;
`asRightArc` adds (stack top, rel, buffer front), pops the stack, and
overwrites the buffer front with the popped stack top. -/
def Transition.apply : Transition → Configuration → Configuration
  | .asShift, c =>
      { c with buffer := c.buffer.tail, stack := c.stack ++ [bufferFront c] }
  | .asLeftArc rel, c =>
      let c := addDependency c ⟨bufferFront c, rel, stackTop c⟩
      { c with stack := c.stack.dropLast }
  | .asRightArc rel, c =>
      let head := stackTop c
      let c := addDependency c ⟨head, rel, bufferFront c⟩
      { c with stack := c.stack.dropLast, buffer := head :: c.buffer.tail }

/-- Embeds `ArcStandard.IsTerminal`: the parse is finished iff the buffer is
empty. -/
def IsTerminal (c : Configuration) : Bool :=
  c.buffer.length == 0

/-- The archetype transitions of `NewArcStandard` (the archetype label is
irrelevant to legality). -/
def archetypeTransitions : List Transition :=
  [.asShift, .asLeftArc "<archetype>", .asRightArc "<archetype>"]

/-- Embeds `ArcStandard.PossibleTransitions`: the archetype transitions legal in
the configuration. -/
def possibleTransitions (c : Configuration) : List Transition :=
  archetypeTransitions.filter (fun t => isPossible t c)

/-- Embeds `ArcStandard.SerializeTransition`: the canonical text form of a
transition (the error branch of the Go code is unreachable for the closed
arc-standard transition union modelled here). -/
def SerializeTransition : Transition → String
  | .asLeftArc rel => "LEFT_ARC " ++ rel
  | .asRightArc rel => "RIGHT_ARC " ++ rel
  | .asShift => "SHIFT"

/-- Go `strings.SplitN(s, " ", 2)` over the character list: the part
before the first separator, and the remainder after it when a separator
occurs. -/
def splitOnFirst (sep : Char) : List Char → List Char × Option (List Char)
  | [] => ([], none)
  | c :: cs =>
    if c = sep then ([], some cs)
    else
      let p := splitOnFirst sep cs
      (c :: p.1, p.2)

/-- Embeds `ArcStandard.DeserializeTransition`: parse the canonical text form,
with the error messages of the Go code. -/
def DeserializeTransition (s : String) : Except String Transition :=
  let parts := splitOnFirst ' ' s.data
  let keyword := String.mk parts.1
  if keyword = "LEFT_ARC" then
    match parts.2 with
    | none => .error "Left-Arc transition requires label argument"
    | some rest => .ok (.asLeftArc (String.mk rest))
  else if keyword = "RIGHT_ARC" then
    match parts.2 with
    | none => .error "Right-Arc transition requires label argument"
    | some rest => .ok (.asRightArc (String.mk rest))
  else if keyword = "SHIFT" then .ok .asShift
  else .error ("Unknown transition: " ++ keyword)

/-- Embeds `ArcStandardOracle.neededForAttachment`: some token in the buffer has
the given token as its gold head. `gold` models the oracle's
`dependentHeadMapping` (a Go map whose lookup is total, missing keys
reading as the zero `Dependency`). -/
def neededForAttachment (gold : Nat → Dependency) (c : Configuration)
    (token : Nat) : Bool :=
  c.buffer.any (fun bufToken => (gold bufToken).head == token)

/-- Embeds `ArcStandardOracle.BestTransition`, read off `parser.go`: LeftArc when
legal and the stack top's gold head is the buffer front; else RightArc
when legal, the buffer front's gold head is the stack top, and the buffer
front is not needed for attachment; else Shift. -/
def bestTransition (gold : Nat → Dependency) (c : Configuration) : Transition :=
  if c.stack.length != 0 then
    let stackTip := stackTop c
    let bufferHead := bufferFront c
    let la := Transition.asLeftArc (gold stackTip).relation
    if isPossible la c && ((gold stackTip).head == bufferHead) then la
    else
      let ra := Transition.asRightArc (gold bufferHead).relation
      if isPossible ra c && ((gold bufferHead).head == stackTip) &&
          !neededForAttachment gold c bufferHead then ra
      else .asShift
  else .asShift

/-- The termination measure for the greedy loop: each legal transition
strictly decreases `2*|Buffer| + |Stack|`. -/
def parseMeasure (c : Configuration) : Nat :=
  2 * c.buffer.length + c.stack.length

/-- The loop of `GreedyParser.parseConfiguration` with explicit fuel: the
Go loop runs until `IsTerminal`; fuel `parseMeasure c` suffices whenever
the guide only returns legal transitions (proved below), and the result is
fuel-independent beyond that bound. -/
def parseSteps (guide : Configuration → Transition) :
    Nat → Configuration → Configuration
  | 0, c => c
  | fuel + 1, c =>
    if IsTerminal c then c else parseSteps guide fuel ((guide c).apply c)

/-- Embeds `GreedyParser.parseConfiguration`: run the loop to termination and
return the accumulated dependency set. -/
def parseConfiguration (guide : Configuration → Transition)
    (c : Configuration) : List Dependency :=
  dependencies (parseSteps guide (parseMeasure c) c)

/-- Embeds `features.Source`: where an address component points into the
configuration. -/
inductive Source where
  | STACK : Source
  | BUFFER : Source
  | LDEP : Source
  | RDEP : Source
deriving DecidableEq, Repr

/-- The numeric tag of a source (the Go `iota` constant value). -/
def Source.tag : Source → Nat
  | .STACK => 0
  | .BUFFER => 1
  | .LDEP => 2
  | .RDEP => 3

/-- Embeds `features.Layer`: which token attribute an address reads. -/
inductive Layer where
  | TOKEN : Layer
  | TAG : Layer
  | DEPREL : Layer
  | FEATURE : Layer
deriving DecidableEq, Repr

/-- The numeric tag of a layer (the Go `iota` constant value). -/
def Layer.tag : Layer → Nat
  | .TOKEN => 0
  | .TAG => 1
  | .DEPREL => 2
  | .FEATURE => 3

/-- Embeds `features.AddressComponent`. -/
structure AddressComponent where
  source : Source
  index : Nat
deriving DecidableEq, Repr

/-- Embeds `features.AddressedValue`. -/
structure AddressedValue where
  address : List AddressComponent
  layer : Layer
  layerArg : String
  value : String
deriving DecidableEq, Repr

/-- The component-walking loop of `AddressedValue.Get`, read off
`addr.go`: `none` models a Go panic (LDEP/RDEP as first component),
`some none` models the unavailable outcome, `some (some t)` the resolved
token. `idx` is the loop index and `token` the current token (zero-valued
at entry, as in Go). -/
def resolveComponents (c : Configuration) :
    List AddressComponent → Nat → Nat → Option (Option Nat)
  | [], _, token => some (some token)
  | comp :: rest, idx, token =>
    match comp.source with
    | .STACK =>
      if c.stack.length ≤ comp.index then some none
      else
        resolveComponents c rest (idx + 1)
          (c.stack.getD (c.stack.length - comp.index - 1) 0)
    | .BUFFER =>
      if c.buffer.length ≤ comp.index then some none
      else resolveComponents c rest (idx + 1) (c.buffer.getD comp.index 0)
    | .LDEP =>
      if idx == 0 then none
      else
        match leftmostDependent c token comp.index with
        | some t => resolveComponents c rest (idx + 1) t
        | none => some none
    | .RDEP =>
      if idx == 0 then none
      else
        match rightmostDependent c token comp.index with
        | some t => resolveComponents c rest (idx + 1) t
        | none => some none

/-- Embeds `AddressedValue.Get`, read off `addr.go`: resolve the address, then
read the layer. The Go `(string, bool)` result is modelled as
`String × Bool` and a Go panic as `none`. -/
def Get (a : AddressedValue) (c : Configuration) : Option (String × Bool) :=
  match resolveComponents c a.address 0 0 with
  | none => none
  | some none => some ("", false)
  | some (some token) =>
    match a.layer with
    | .TOKEN => some (c.tokens token, true)
    | .TAG => some (c.tags token, true)
    | .DEPREL =>
      match headOf c token with
      | some dep => some (dep.relation, true)
      | none => some ("", false)
    | .FEATURE =>
      match c.feats token with
      | none => some ("", false)
      | some featureMap =>
        match featureMap a.layerArg with
        | some v => some (v, true)
        | none => some ("", false)

/-- Go `binary.LittleEndian.PutUint64`: the eight bytes of a 64-bit value,
least significant first. -/
def le64 (n : Nat) : List Nat :=
  [n % 256, n / 2 ^ 8 % 256, n / 2 ^ 16 % 256, n / 2 ^ 24 % 256,
   n / 2 ^ 32 % 256, n / 2 ^ 40 % 256, n / 2 ^ 48 % 256, n / 2 ^ 56 % 256]

/-- The UTF-8 encoding of one character (the byte layout Go and Lean both
use for strings). -/
def charUTF8 (ch : Char) : List Nat :=
  let n := ch.toNat
  if n < 0x80 then [n]
  else if n < 0x800 then
    [0xC0 ||| (n >>> 6), 0x80 ||| (n &&& 0x3F)]
  else if n < 0x10000 then
    [0xE0 ||| (n >>> 12), 0x80 ||| ((n >>> 6) &&& 0x3F), 0x80 ||| (n &&& 0x3F)]
  else
    [0xF0 ||| (n >>> 18), 0x80 ||| ((n >>> 12) &&& 0x3F),
     0x80 ||| ((n >>> 6) &&& 0x3F), 0x80 ||| (n &&& 0x3F)]

/-- Go `[]byte(s)`: the UTF-8 bytes of a string. -/
def strBytes (s : String) : List Nat :=
  (s.data.map charUTF8).flatten

/-- Embeds `hash.Hash.Write`: the running hash accumulator is modelled by the
byte stream fed to it. -/
def hashWrite (h bs : List Nat) : List Nat := h ++ bs

/-- Embeds `AddressedValue.appendHash`, read off `addr.go`: per component the
source tag then the index (each as eight little-endian bytes); the layer
tag is placed in a scratch buffer; when the layer is FEATURE the layer
argument is written next; then the scratch buffer (the layer tag), then
the resolved value. -/
def appendHash (a : AddressedValue) (h : List Nat) : List Nat :=
  let h := a.address.foldl
    (fun h comp =>
      hashWrite (hashWrite h (le64 comp.source.tag)) (le64 comp.index)) h
  let buf := le64 a.layer.tag
  let h := if a.layer == .FEATURE then hashWrite h (strBytes a.layerArg) else h
  let h := hashWrite h buf
  hashWrite h (strBytes a.value)

/-- The fixed-width byte encoding of the address path: each component's
source tag and index, in path order. -/
def addressBytes (a : AddressedValue) : List Nat :=
  (a.address.map (fun comp => le64 comp.source.tag ++ le64 comp.index)).flatten

/-- The hash byte stream in the order the specification describes it:
address path, then layer tag, then the feature argument when the layer is
FEATURE, then the resolved value. -/
def appendHashSpecOrder (a : AddressedValue) (h : List Nat) : List Nat :=
  h ++ addressBytes a ++ le64 a.layer.tag ++
    (if a.layer == .FEATURE then strBytes a.layerArg else []) ++
    strBytes a.value

/-- The feature-bounding of `HashingSVMGuide.BestTransition`: the sign is
-1 exactly when bit 31 of the raw hash is set. -/
def featureSign (h : Nat) : Int :=
  if h &&& 0x80000000 == 0x80000000 then -1 else 1

/-- The bounded index of `HashingSVMGuide.BestTransition`:
`((hash & 0x7fffffff) % maxFeatures) + 1`. -/
def boundedIndex (maxFeatures h : Nat) : Nat :=
  (h &&& 0x7fffffff) % maxFeatures + 1

/-- The per-feature loop body introducing feature bounds in
`HashingSVMGuide.BestTransition`: rewrite the index and multiply the
value by the sign. -/
def introduceBounds (maxFeatures : Nat) (fv : Nat × Int) : Nat × Int :=
  (boundedIndex maxFeatures fv.1, fv.2 * featureSign fv.1)

/-- The label-selection loop of `HashingSVMGuide.BestTransition`, read off
the Go source: skip a label when its decision value is below the best so
far or it is illegal, otherwise it becomes the new best. The accumulator
`none` models `bestValue = -Inf, bestLabel = nil`; decision values are
modelled as `Int` (the loop only compares them). `scored` zips the
decision values with the labels in the model's enumeration order. -/
def guideSelect (c : Configuration) :
    List (Int × Transition) → Option (Int × Transition) →
      Option (Int × Transition)
  | [], best => best
  | (v, l) :: rest, best =>
    match best with
    | none =>
      if isPossible l c then guideSelect c rest (some (v, l))
      else guideSelect c rest none
    | some (bv, bl) =>
      if v < bv then guideSelect c rest (some (bv, bl))
      else if isPossible l c then guideSelect c rest (some (v, l))
      else guideSelect c rest (some (bv, bl))

/-- The label returned by the selection loop of
`HashingSVMGuide.BestTransition` (still `none` when no legal label
exists, modelling the nil `bestLabel`). -/
def hashingGuideBest (c : Configuration)
    (scored : List (Int × Transition)) : Option Transition :=
  (guideSelect c scored none).map Prod.snd

/-- The scored labels that are legal in the configuration. -/
def legalScored (c : Configuration) (scored : List (Int × Transition)) :
    List (Int × Transition) :=
  scored.filter (fun p => isPossible p.2 c)

/-- The selection the specification's words describe, except with ties
broken towards the label seen last: among the legal labels, those
attaining the maximal decision value, the last one in enumeration
order. -/
def lastMaxLegal (c : Configuration) (scored : List (Int × Transition)) :
    Option (Int × Transition) :=
  match ((legalScored c scored).map Prod.fst).max? with
  | none => none
  | some m => ((legalScored c scored).filter (fun p => p.1 == m)).getLast?

/-- C1: applying RightArc(rel) to a configuration with non-empty stack
and buffer adds the dependency (head = stack top, rel, dependent = buffer
front), pops the stack top, and replaces the buffer front with the popped
stack top, leaving the buffer length unchanged. -/
theorem rightarc_apply_effect (c : Configuration) (rel : String)
    (hs : c.stack ≠ []) (hb : c.buffer ≠ []) :
    (Transition.apply (.asRightArc rel) c).arcs
        = c.arcs ++ [⟨stackTop c, rel, bufferFront c⟩] ∧
    (Transition.apply (.asRightArc rel) c).stack = c.stack.dropLast ∧
    (Transition.apply (.asRightArc rel) c).buffer
        = stackTop c :: c.buffer.tail ∧
    (Transition.apply (.asRightArc rel) c).buffer.length
        = c.buffer.length := by
  obtain ⟨b, rest, hbuf⟩ : ∃ b rest, c.buffer = b :: rest :=
    ⟨c.buffer.head hb, c.buffer.tail, (List.head_cons_tail _ hb).symm⟩
  refine ⟨rfl, rfl, rfl, ?_⟩
  simp [Transition.apply, addDependency, hbuf]

/-- Witness for C1 at the spec's own example: Stack = [5, 7],
Buffer = [9], relation "obj". -/
theorem rightarc_apply_effect_witness :
    (Transition.apply (.asRightArc "obj")
        ⟨[5, 7], [9], [], fun _ => "", fun _ => "", fun _ => none⟩).arcs
        = [⟨7, "obj", 9⟩] ∧
    (Transition.apply (.asRightArc "obj")
        ⟨[5, 7], [9], [], fun _ => "", fun _ => "", fun _ => none⟩).stack
        = [5] ∧
    (Transition.apply (.asRightArc "obj")
        ⟨[5, 7], [9], [], fun _ => "", fun _ => "", fun _ => none⟩).buffer
        = [7] := by
  have h := rightarc_apply_effect
    ⟨[5, 7], [9], [], fun _ => "", fun _ => "", fun _ => none⟩ "obj"
    (by decide) (by decide)
  exact ⟨h.1.trans (by decide), h.2.1.trans (by decide),
    h.2.2.1.trans (by decide)⟩

/-- C6: a non-terminal configuration always has a possible transition;
Shift is legal exactly when the buffer is non-empty, and buffer-emptiness
is exactly the terminal condition. -/
theorem possible_transitions_nonempty (c : Configuration) :
    (IsTerminal c = false → possibleTransitions c ≠ []) ∧
    (isPossible .asShift c = true ↔ c.buffer ≠ []) ∧
    (IsTerminal c = true ↔ c.buffer = []) := by
  have hshift : isPossible .asShift c = true ↔ c.buffer ≠ [] := by
    simp [isPossible, List.length_eq_zero]
  refine ⟨?_, hshift, ?_⟩
  · intro hterm
    have hb : c.buffer ≠ [] := by
      simpa [IsTerminal, List.length_eq_zero] using hterm
    have hmem : Transition.asShift ∈ possibleTransitions c := by
      simp [possibleTransitions, archetypeTransitions, List.mem_filter,
        hshift.mpr hb]
    exact List.ne_nil_of_mem hmem
  · simp [IsTerminal, List.length_eq_zero]

/-- Witness for C6 at a concrete non-terminal configuration. -/
theorem possible_transitions_nonempty_witness :
    possibleTransitions
        ⟨[], [1], [], fun _ => "", fun _ => "", fun _ => none⟩ ≠ [] :=
  (possible_transitions_nonempty
    ⟨[], [1], [], fun _ => "", fun _ => "", fun _ => none⟩).1 (by decide)

/-- The sign multiplier equals the value of bit 31 of the raw hash. -/
theorem featureSign_eq_testBit (h : Nat) :
    featureSign h = if h.testBit 31 then -1 else 1 := by
  unfold featureSign
  have hmask : h &&& 2147483648 = (h.testBit 31).toNat * 2147483648 := by
    simpa using Nat.and_two_pow h 31
  cases hb : h.testBit 31 <;> simp [hb] at hmask <;> norm_num [hmask]

/-- C7: the bounded index is `((h with sign bit cleared) mod M) + 1`,
always in `[1, M]`, and the value multiplier is -1 exactly when bit 31 of
the raw hash is set. -/
theorem hashing_bounded_index_range (h M : Nat) (v : Int)
    (hM : 1 ≤ M) (hh : h < 2 ^ 32) :
    1 ≤ boundedIndex M h ∧ boundedIndex M h ≤ M ∧
    boundedIndex M h = h % 2 ^ 31 % M + 1 ∧
    (featureSign h = -1 ↔ h.testBit 31) ∧
    (featureSign h = 1 ↔ ¬ h.testBit 31) ∧
    introduceBounds M (h, v) = (boundedIndex M h, v * featureSign h) := by
  have hand : h &&& 0x7fffffff = h % 2 ^ 31 := by
    have := Nat.and_pow_two_sub_one_eq_mod h 31
    norm_num at this ⊢
    exact this
  have hlt : h % 2 ^ 31 % M < M := Nat.mod_lt _ (by omega)
  refine ⟨by simp [boundedIndex], ?_, ?_, ?_, ?_, rfl⟩
  · unfold boundedIndex
    rw [hand]
    omega
  · unfold boundedIndex
    rw [hand]
  · rw [featureSign_eq_testBit]
    cases hb : h.testBit 31 <;> simp [hb]
  · rw [featureSign_eq_testBit]
    cases hb : h.testBit 31 <;> simp [hb]

/-- Witness for C7 at `h = 2^31 + 3`, `M = 10`, `v = 2` (sign bit set). -/
theorem hashing_bounded_index_range_witness :
    1 ≤ boundedIndex 10 (2 ^ 31 + 3) ∧ boundedIndex 10 (2 ^ 31 + 3) ≤ 10 ∧
    boundedIndex 10 (2 ^ 31 + 3) = (2 ^ 31 + 3) % 2 ^ 31 % 10 + 1 ∧
    (featureSign (2 ^ 31 + 3) = -1 ↔ (2 ^ 31 + 3 : Nat).testBit 31) ∧
    (featureSign (2 ^ 31 + 3) = 1 ↔ ¬ (2 ^ 31 + 3 : Nat).testBit 31) ∧
    introduceBounds 10 (2 ^ 31 + 3, 2)
        = (boundedIndex 10 (2 ^ 31 + 3), 2 * featureSign (2 ^ 31 + 3)) :=
  hashing_bounded_index_range (2 ^ 31 + 3) 10 2 (by decide) (by decide)

/-- C8: a first address component STACK (resp. BUFFER) with offset k
resolves to the token k positions from the stack top (resp. buffer
front), offset 0 being the nearest; an offset at or beyond the available
elements makes `Get` return the unavailable outcome `("", false)` rather
than an error. -/
theorem addressed_value_get_stack_buffer (c : Configuration) (k : Nat)
    (rest : List AddressComponent) (lay : Layer) (arg val : String) :
    (k < c.stack.length →
      resolveComponents c (⟨.STACK, k⟩ :: rest) 0 0
        = resolveComponents c rest 1 (c.stack.reverse.getD k 0)) ∧
    (c.stack.length ≤ k →
      Get ⟨⟨.STACK, k⟩ :: rest, lay, arg, val⟩ c = some ("", false)) ∧
    (k < c.buffer.length →
      resolveComponents c (⟨.BUFFER, k⟩ :: rest) 0 0
        = resolveComponents c rest 1 (c.buffer.getD k 0)) ∧
    (c.buffer.length ≤ k →
      Get ⟨⟨.BUFFER, k⟩ :: rest, lay, arg, val⟩ c = some ("", false)) ∧
    (k < c.stack.length →
      Get ⟨[⟨.STACK, k⟩], .TOKEN, arg, val⟩ c
        = some (c.tokens (c.stack.reverse.getD k 0), true)) := by
  have hrev : k < c.stack.length →
      c.stack.getD (c.stack.length - k - 1) 0 = c.stack.reverse.getD k 0 := by
    intro hk
    have hk' : k < c.stack.reverse.length := by simpa using hk
    rw [List.getD_eq_getElem?_getD, List.getD_eq_getElem?_getD,
      List.getElem?_reverse (by simpa using hk)]
    have : c.stack.length - 1 - k = c.stack.length - k - 1 := by omega
    rw [this]
  refine ⟨?_, ?_, ?_, ?_, ?_⟩
  · intro hk
    simp only [resolveComponents, if_neg (by omega : ¬ c.stack.length ≤ k)]
    rw [hrev hk]
  · intro hk
    simp [Get, resolveComponents, if_pos hk]
  · intro hk
    simp only [resolveComponents, if_neg (by omega : ¬ c.buffer.length ≤ k)]
  · intro hk
    simp [Get, resolveComponents, if_pos hk]
  · intro hk
    simp only [Get, resolveComponents, if_neg (by omega : ¬ c.stack.length ≤ k)]
    rw [hrev hk]

/-- Witness for C8 at the spec's own example: Stack = [2, 5] (top = 5),
`Get([STACK 0], TOKEN)` yields token 5's form, `Get([STACK 2], TOKEN)` is
unavailable. -/
theorem addressed_value_get_stack_buffer_witness :
    Get ⟨[⟨.STACK, 0⟩], .TOKEN, "", ""⟩
        ⟨[2, 5], [], [], (fun n => if n = 5 then "five" else "w"),
          fun _ => "", fun _ => none⟩
      = some ("five", true) ∧
    Get ⟨[⟨.STACK, 2⟩], .TOKEN, "", ""⟩
        ⟨[2, 5], [], [], (fun n => if n = 5 then "five" else "w"),
          fun _ => "", fun _ => none⟩
      = some ("", false) := by
  have h := addressed_value_get_stack_buffer
    ⟨[2, 5], [], [], (fun n => if n = 5 then "five" else "w"),
      fun _ => "", fun _ => none⟩ 0 [] .TOKEN "" ""
  have h2 := addressed_value_get_stack_buffer
    ⟨[2, 5], [], [], (fun n => if n = 5 then "five" else "w"),
      fun _ => "", fun _ => none⟩ 2 [] .TOKEN "" ""
  exact ⟨(h.2.2.2.2 (by decide)).trans (by decide), h2.2.1 (by decide)⟩

/-- C10: at any configuration with a non-empty buffer, the transition the
oracle returns is legal there (its `IsPossible` predicate holds). -/
theorem oracle_transition_legal (gold : Nat → Dependency)
    (c : Configuration) (hb : c.buffer ≠ []) :
    isPossible (bestTransition gold c) c = true := by
  have hb' : (c.buffer.length != 0) = true := by
    simpa [List.length_eq_zero] using hb
  simp only [bestTransition]
  split
  · split
    · next h => exact (Bool.and_eq_true _ _ |>.mp h).1
    · split
      · next h =>
        exact ((Bool.and_eq_true _ _).mp ((Bool.and_eq_true _ _).mp h).1).1
      · exact hb'
  · exact hb'

/-- Witness for C10 at a concrete configuration and gold mapping. -/
theorem oracle_transition_legal_witness :
    isPossible
      (bestTransition (fun _ => ⟨0, "", 0⟩)
        ⟨[1], [2], [], fun _ => "", fun _ => "", fun _ => none⟩)
      ⟨[1], [2], [], fun _ => "", fun _ => "", fun _ => none⟩ = true :=
  oracle_transition_legal (fun _ => ⟨0, "", 0⟩)
    ⟨[1], [2], [], fun _ => "", fun _ => "", fun _ => none⟩ (by decide)

/-- C2: the oracle's decision precedence at a non-terminal configuration:
with an empty stack it shifts; otherwise LeftArc(gold(s).relation) when
LeftArc is legal and gold(s).head is the buffer front; else
RightArc(gold(b).relation) when RightArc is legal, gold(b).head is the
stack top, and no buffer token has b as its gold head; else Shift. -/
theorem oracle_best_transition_cases (gold : Nat → Dependency)
    (c : Configuration) (hb : c.buffer ≠ []) :
    (c.stack = [] → bestTransition gold c = .asShift) ∧
    (c.stack ≠ [] →
      ((isPossible (.asLeftArc (gold (stackTop c)).relation) c = true ∧
          (gold (stackTop c)).head = bufferFront c) →
        bestTransition gold c = .asLeftArc (gold (stackTop c)).relation) ∧
      (¬(isPossible (.asLeftArc (gold (stackTop c)).relation) c = true ∧
          (gold (stackTop c)).head = bufferFront c) →
        ((isPossible (.asRightArc (gold (bufferFront c)).relation) c = true ∧
            (gold (bufferFront c)).head = stackTop c ∧
            ∀ t ∈ c.buffer, (gold t).head ≠ bufferFront c) →
          bestTransition gold c
            = .asRightArc (gold (bufferFront c)).relation) ∧
        (¬(isPossible (.asRightArc (gold (bufferFront c)).relation) c
              = true ∧
            (gold (bufferFront c)).head = stackTop c ∧
            ∀ t ∈ c.buffer, (gold t).head ≠ bufferFront c) →
          bestTransition gold c = .asShift))) := by
  have hneed : (!neededForAttachment gold c (bufferFront c)) = true ↔
      ∀ t ∈ c.buffer, (gold t).head ≠ bufferFront c := by
    simp [neededForAttachment, List.any_eq_true]
  constructor
  · intro hempty
    simp only [bestTransition]
    rw [if_neg]
    simp [hempty]
  · intro hne
    have hlen : (c.stack.length != 0) = true := by
      simpa [List.length_eq_zero] using hne
    refine ⟨?_, ?_⟩
    · intro ⟨hla, hhead⟩
      simp only [bestTransition]
      rw [if_pos hlen, if_pos]
      simp [hla, hhead]
    · intro hnla
      refine ⟨?_, ?_⟩
      · intro ⟨hra, hhead, hfree⟩
        simp only [bestTransition]
        rw [if_pos hlen, if_neg, if_pos]
        · simp [hra, hhead, hneed.mpr hfree]
        · simpa [not_and] using hnla
      · intro hnra
        simp only [bestTransition]
        rw [if_pos hlen, if_neg, if_neg]
        · intro h
          rw [Bool.and_eq_true, Bool.and_eq_true] at h
          obtain ⟨⟨h1, h2⟩, h3⟩ := h
          exact hnra ⟨h1, by simpa using h2, hneed.mp h3⟩
        · simpa [not_and] using hnla

/-- Witness for C2 at a concrete configuration whose gold tree triggers
the LeftArc branch (gold head of the stack top is the buffer front). -/
theorem oracle_best_transition_cases_witness :
    bestTransition (fun t => if t = 1 then ⟨2, "nsubj", 1⟩ else ⟨0, "", 0⟩)
        ⟨[1], [2], [], fun _ => "", fun _ => "", fun _ => none⟩
      = .asLeftArc "nsubj" :=
  ((oracle_best_transition_cases
      (fun t => if t = 1 then ⟨2, "nsubj", 1⟩ else ⟨0, "", 0⟩)
      ⟨[1], [2], [], fun _ => "", fun _ => "", fun _ => none⟩
      (by decide)).2 (by decide)).1 ⟨by decide, by decide⟩

/-- Splitting at the first separator after a separator-free prefix yields
that prefix and the remainder. -/
theorem splitOnFirst_append (sep : Char) (l1 l2 : List Char)
    (h : sep ∉ l1) :
    splitOnFirst sep (l1 ++ sep :: l2) = (l1, some l2) := by
  induction l1 with
  | nil => simp [splitOnFirst]
  | cons c cs ih =>
    have hc : ¬ c = sep := fun hc => h (hc ▸ List.mem_cons_self c cs)
    have ih' := ih (fun hm => h (List.mem_cons_of_mem _ hm))
    simp only [List.cons_append, splitOnFirst, if_neg hc, List.append_eq, ih']

/-- C5: every arc-standard transition round-trips through its canonical
text form: deserializing the serialization succeeds and returns an equal
transition. -/
theorem transition_serialize_round_trip (t : Transition) :
    DeserializeTransition (SerializeTransition t) = .ok t := by
  cases t with
  | asShift => rfl
  | asLeftArc rel =>
    show DeserializeTransition ("LEFT_ARC " ++ rel) = .ok (.asLeftArc rel)
    have hdata : ("LEFT_ARC " ++ rel).data
        = "LEFT_ARC".data ++ ' ' :: rel.data := by
      rw [String.data_append]; rfl
    unfold DeserializeTransition
    rw [hdata, splitOnFirst_append _ _ _ (by decide)]
    rfl
  | asRightArc rel =>
    show DeserializeTransition ("RIGHT_ARC " ++ rel) = .ok (.asRightArc rel)
    have hdata : ("RIGHT_ARC " ++ rel).data
        = "RIGHT_ARC".data ++ ' ' :: rel.data := by
      rw [String.data_append]; rfl
    unfold DeserializeTransition
    rw [hdata, splitOnFirst_append _ _ _ (by decide)]
    rfl

/-- C4 as the specification states it fails: with layer FEATURE, the code
feeds the layer argument into the hash before the layer tag, so the
claimed byte order (layer tag first) differs from the computed one on a
concrete addressed value. -/
theorem append_hash_spec_order_counterexample :
    appendHash ⟨[], .FEATURE, "x", ""⟩ []
        ≠ appendHashSpecOrder ⟨[], .FEATURE, "x", ""⟩ [] := by
  decide

/-- C4 amended: the hash byte stream is the address components' source
tags and indices (fixed-width, in path order), then - when the layer is
FEATURE - the feature argument, then the layer tag, then the resolved
string value. -/
theorem append_hash_field_order (a : AddressedValue) (h : List Nat) :
    appendHash a h =
      h ++ addressBytes a ++
        (if a.layer == .FEATURE then strBytes a.layerArg else []) ++
        le64 a.layer.tag ++ strBytes a.value := by
  unfold appendHash hashWrite
  have hfold : ∀ (comps : List AddressComponent) (acc : List Nat),
      comps.foldl
          (fun h comp => h ++ le64 comp.source.tag ++ le64 comp.index) acc
        = acc ++
            (comps.map
              (fun comp => le64 comp.source.tag ++ le64 comp.index)).flatten := by
    intro comps
    induction comps with
    | nil => simp
    | cons x xs ih =>
      intro acc
      rw [List.foldl_cons, ih]
      simp [List.append_assoc]
  rw [hfold]
  unfold addressBytes
  cases hlay : a.layer == .FEATURE <;> simp [List.append_assoc]

/-- Every transition legal at a configuration strictly decreases the
measure `2*|Buffer| + |Stack|`. -/
theorem measure_decrease (c : Configuration) (t : Transition)
    (h : isPossible t c = true) :
    parseMeasure (Transition.apply t c) < parseMeasure c := by
  cases t with
  | asShift =>
    have hb : c.buffer ≠ [] := by
      simpa [isPossible, List.length_eq_zero] using h
    have : c.buffer.length ≠ 0 := by simpa [List.length_eq_zero]
    simp [Transition.apply, parseMeasure, List.length_tail]
    omega
  | asLeftArc rel =>
    simp only [isPossible, Bool.and_eq_true, bne_iff_ne, ne_eq] at h
    simp [Transition.apply, parseMeasure, addDependency, List.length_dropLast]
    omega
  | asRightArc rel =>
    simp only [isPossible, Bool.and_eq_true, bne_iff_ne, ne_eq] at h
    simp [Transition.apply, parseMeasure, addDependency,
      List.length_dropLast, List.length_tail]
    omega

/-- The loop leaves a terminal configuration untouched, for any fuel. -/
theorem parseSteps_of_terminal (guide : Configuration → Transition)
    (fuel : Nat) (c : Configuration) (h : IsTerminal c = true) :
    parseSteps guide fuel c = c := by
  cases fuel with
  | zero => rfl
  | succ n => simp [parseSteps, h]

/-- With a guide that only returns legal transitions, fuel
`parseMeasure c` drives any configuration to a terminal one. -/
theorem parseSteps_terminal (guide : Configuration → Transition)
    (hlegal : ∀ c, IsTerminal c = false → isPossible (guide c) c = true) :
    ∀ fuel c, parseMeasure c ≤ fuel →
      IsTerminal (parseSteps guide fuel c) = true := by
  intro fuel
  induction fuel with
  | zero =>
    intro c h
    have hb : c.buffer.length = 0 := by
      unfold parseMeasure at h; omega
    simp [parseSteps, IsTerminal, hb]
  | succ n ih =>
    intro c h
    by_cases ht : IsTerminal c = true
    · simp [parseSteps, ht]
    · have ht' : IsTerminal c = false := by simpa using ht
      have hlt := measure_decrease c (guide c) (hlegal c ht')
      simp only [parseSteps, ht', if_false, Bool.false_eq_true]
      exact ih _ (by omega)

/-- Beyond the measure, the amount of fuel does not change the loop's
result: the fueled model agrees with the unbounded Go loop. -/
theorem parseSteps_fuel_stable (guide : Configuration → Transition)
    (hlegal : ∀ c, IsTerminal c = false → isPossible (guide c) c = true) :
    ∀ fuel fuel' c, parseMeasure c ≤ fuel → parseMeasure c ≤ fuel' →
      parseSteps guide fuel c = parseSteps guide fuel' c := by
  intro fuel
  induction fuel with
  | zero =>
    intro fuel' c h h'
    have hb : c.buffer.length = 0 := by
      unfold parseMeasure at h; omega
    have hterm : IsTerminal c = true := by simp [IsTerminal, hb]
    rw [parseSteps_of_terminal _ _ _ hterm, parseSteps_of_terminal _ _ _ hterm]
  | succ n ih =>
    intro fuel' c h h'
    by_cases ht : IsTerminal c = true
    · rw [parseSteps_of_terminal _ _ _ ht, parseSteps_of_terminal _ _ _ ht]
    · have ht' : IsTerminal c = false := by simpa using ht
      have hb : c.buffer.length ≠ 0 := by
        simpa [IsTerminal] using ht'
      have hm : 1 ≤ parseMeasure c := by unfold parseMeasure; omega
      cases fuel' with
      | zero => omega
      | succ m =>
        have hlt := measure_decrease c (guide c) (hlegal c ht')
        simp only [parseSteps, ht', if_false, Bool.false_eq_true]
        exact ih _ _ (by omega) (by omega)

/-- C9: with a guide that always returns a legal transition, every legal
transition strictly decreases `2*|Buffer| + |Stack|`, the greedy loop
reaches a terminal configuration within that many steps (`2*(n+1)` from
the initial configuration of an n-token sentence), and the parse returns
the accumulated dependency set of the final configuration regardless of
any surplus fuel. -/
theorem greedy_parser_terminates (guide : Configuration → Transition)
    (hlegal : ∀ c, IsTerminal c = false → isPossible (guide c) c = true) :
    (∀ c t, isPossible t c = true →
        parseMeasure (Transition.apply t c) < parseMeasure c) ∧
    (∀ c, IsTerminal (parseSteps guide (parseMeasure c) c) = true) ∧
    (∀ c fuel, parseMeasure c ≤ fuel →
        dependencies (parseSteps guide fuel c) = parseConfiguration guide c) ∧
    (∀ n toks tags feats,
        parseMeasure (initialConfiguration n toks tags feats)
          = 2 * (n + 1)) := by
  refine ⟨fun c t h => measure_decrease c t h,
    fun c => parseSteps_terminal guide hlegal _ c (Nat.le_refl _),
    fun c fuel hf => ?_,
    fun n toks tags feats => by simp [parseMeasure, initialConfiguration]⟩
  unfold parseConfiguration
  rw [parseSteps_fuel_stable guide hlegal fuel (parseMeasure c) c hf
    (Nat.le_refl _)]

/-- Witness for C9 with the always-Shift guide (legal at every
non-terminal configuration) on a two-token sentence. -/
theorem greedy_parser_terminates_witness :
    IsTerminal
      (parseSteps (fun _ => Transition.asShift)
        (parseMeasure
          ⟨[], [0, 1], [], fun _ => "", fun _ => "", fun _ => none⟩)
        ⟨[], [0, 1], [], fun _ => "", fun _ => "", fun _ => none⟩)
      = true :=
  (greedy_parser_terminates (fun _ => .asShift)
    (fun c hc => by
      simp only [IsTerminal] at hc
      simp only [isPossible, bne]
      simp [hc])).2.1 _

/-- One step of the right-to-left summary of the selection loop: a later
candidate q beats an earlier p on ties (q survives unless strictly
smaller). -/
def selectStep (p : Int × Transition) :
    Option (Int × Transition) → Option (Int × Transition)
  | none => some p
  | some q => if q.1 < p.1 then some p else some q

/-- Filtering distributes over cons. -/
theorem legalScored_cons (c : Configuration) (p : Int × Transition)
    (rest : List (Int × Transition)) :
    legalScored c (p :: rest)
      = if isPossible p.2 c then p :: legalScored c rest
        else legalScored c rest := by
  simp [legalScored, List.filter_cons]

/-- The selection loop with a non-empty accumulator: the later candidates
win ties against the accumulated best. -/
theorem guideSelect_acc (c : Configuration) :
    ∀ (scored : List (Int × Transition)) (acc : Int × Transition),
      guideSelect c scored (some acc) =
        match (legalScored c scored).foldr selectStep none with
        | none => some acc
        | some q => if q.1 < acc.1 then some acc else some q := by
  intro scored
  induction scored with
  | nil => intro acc; simp [guideSelect, legalScored]
  | cons p rest ih =>
    intro acc
    obtain ⟨v, l⟩ := p
    rw [legalScored_cons]
    by_cases hleg : isPossible l c
    · rw [if_pos hleg]
      by_cases hv : v < acc.1
      · have lhs : guideSelect c ((v, l) :: rest) (some acc)
            = guideSelect c rest (some acc) := by
          simp [guideSelect, hv]
        rw [lhs, ih acc, List.foldr_cons]
        cases hR : (legalScored c rest).foldr selectStep none with
        | none => simp [selectStep, hv]
        | some q =>
          by_cases hq : q.1 < v
          · simp [selectStep, hR, hq, if_pos hv]
            intro h
            omega
          · simp [selectStep, hR, hq]
      · have lhs : guideSelect c ((v, l) :: rest) (some acc)
            = guideSelect c rest (some (v, l)) := by
          simp [guideSelect, hv, hleg]
        rw [lhs, ih (v, l), List.foldr_cons]
        cases hR : (legalScored c rest).foldr selectStep none with
        | none => simp [selectStep, hv]
        | some q =>
          by_cases hq : q.1 < v
          · simp [selectStep, hR, hq, hv]
          · have hqa : ¬ q.1 < acc.1 := by omega
            simp [selectStep, hR, hq, hqa]
    · rw [if_neg hleg]
      have lhs : guideSelect c ((v, l) :: rest) (some acc)
          = guideSelect c rest (some acc) := by
        by_cases hv : v < acc.1 <;> simp [guideSelect, hv, hleg]
      rw [lhs, ih acc]

/-- The selection loop started from the nil accumulator computes the
right-to-left summary of the legal scored labels. -/
theorem guideSelect_none (c : Configuration) :
    ∀ scored, guideSelect c scored none
      = (legalScored c scored).foldr selectStep none := by
  intro scored
  induction scored with
  | nil => simp [guideSelect, legalScored]
  | cons p rest ih =>
    obtain ⟨v, l⟩ := p
    rw [legalScored_cons]
    by_cases hleg : isPossible l c
    · rw [if_pos hleg]
      have lhs : guideSelect c ((v, l) :: rest) none
          = guideSelect c rest (some (v, l)) := by
        simp [guideSelect, hleg]
      rw [lhs, guideSelect_acc, List.foldr_cons]
      cases hR : (legalScored c rest).foldr selectStep none with
      | none => simp [selectStep]
      | some q => by_cases hq : q.1 < v <;> simp [selectStep, hq]
    · rw [if_neg hleg]
      have lhs : guideSelect c ((v, l) :: rest) none
          = guideSelect c rest none := by
        simp [guideSelect, hleg]
      rw [lhs, ih]

/-- The "last pair attaining the maximum" description agrees with the
right-to-left summary, on any list of scored labels. -/
theorem lastMaxLegal_foldr :
    ∀ l : List (Int × Transition),
      (match (l.map Prod.fst).max? with
       | none => none
       | some m => (l.filter (fun p => p.1 == m)).getLast?)
      = l.foldr selectStep none := by
  intro l
  induction l with
  | nil => rfl
  | cons p l ih =>
    rw [List.foldr_cons, ← ih, List.map_cons]
    cases hm : (l.map Prod.fst).max? with
    | none =>
      have hl : l = [] := by
        have := List.max?_eq_none_iff.mp hm
        simpa using this
      subst hl
      simp [List.max?, selectStep]
    | some m =>
      have hmem : m ∈ l.map Prod.fst := List.max?_mem max_choice hm
      have hle : ∀ b ∈ l.map Prod.fst, b ≤ m :=
        (List.max?_le_iff (fun _ _ _ => max_le_iff) hm).mp le_rfl
      obtain ⟨q0, hq0l, hq0⟩ := List.mem_map.mp hmem
      have hfl : q0 ∈ l.filter (fun p' => p'.1 == m) :=
        List.mem_filter.mpr ⟨hq0l, by simp [hq0]⟩
      have hflne : l.filter (fun p' => p'.1 == m) ≠ [] :=
        List.ne_nil_of_mem hfl
      rw [List.max?_cons, hm]
      simp only [Option.elim]
      rcases lt_or_le m p.1 with hcmp | hcmp
      · have hmax : max p.1 m = p.1 := max_eq_left (le_of_lt hcmp)
        rw [hmax]
        have hfilter : l.filter (fun p' => p'.1 == p.1) = [] := by
          rw [List.filter_eq_nil_iff]
          intro x hx
          have := hle x.1 (List.mem_map.mpr ⟨x, hx, rfl⟩)
          simp only [beq_iff_eq]
          omega
        rw [List.filter_cons]
        simp only [beq_self_eq_true, if_pos, hfilter]
        cases hglast : (l.filter (fun p' => p'.1 == m)).getLast? with
        | none => exact absurd (List.getLast?_eq_none_iff.mp hglast) hflne
        | some q1 =>
          have hq1mem := List.mem_of_getLast?_eq_some hglast
          have hq1m : q1.1 = m := by
            have := (List.mem_filter.mp hq1mem).2
            simpa using this
          simp [selectStep, hq1m, hcmp]
      · have hmax : max p.1 m = m := max_eq_right hcmp
        rw [hmax]
        cases hglast : (l.filter (fun p' => p'.1 == m)).getLast? with
        | none => exact absurd (List.getLast?_eq_none_iff.mp hglast) hflne
        | some q1 =>
          have hq1mem := List.mem_of_getLast?_eq_some hglast
          have hq1m : q1.1 = m := by
            have := (List.mem_filter.mp hq1mem).2
            simpa using this
          have hnlt : ¬ q1.1 < p.1 := by omega
          rw [List.filter_cons]
          by_cases hpm : p.1 == m
          · rw [if_pos (by simpa using hpm)]
            obtain ⟨x, xs, hxs⟩ := List.exists_cons_of_ne_nil hflne
            rw [hxs, List.getLast?_cons_cons]
            rw [hxs] at hglast
            rw [hglast]
            simp [selectStep, hnlt]
          · rw [if_neg (by simpa using hpm)]
            rw [hglast]
            simp [selectStep, hnlt]

/-- C3 as the specification states it fails: with two legal labels tied
at the maximal decision value, the selection loop returns the one that
occurs last in the enumeration order, not first (the strict `<` skip lets
an equal later value overwrite the best). -/
theorem guide_tie_break_first_seen_counterexample :
    isPossible .asShift
        ⟨[1], [2], [], fun _ => "", fun _ => "", fun _ => none⟩ = true ∧
    isPossible (.asRightArc "a")
        ⟨[1], [2], [], fun _ => "", fun _ => "", fun _ => none⟩ = true ∧
    hashingGuideBest
        ⟨[1], [2], [], fun _ => "", fun _ => "", fun _ => none⟩
        [(5, .asShift), (5, .asRightArc "a")]
      = some (.asRightArc "a") ∧
    hashingGuideBest
        ⟨[1], [2], [], fun _ => "", fun _ => "", fun _ => none⟩
        [(5, .asShift), (5, .asRightArc "a")]
      ≠ some .asShift := by
  decide

/-- C3 amended: the guide's selection loop returns the legal label with
the maximum decision value, ties broken towards the label occurring last
in the model's enumeration order. -/
theorem guide_tie_break_last_seen (c : Configuration)
    (scored : List (Int × Transition)) :
    hashingGuideBest c scored = (lastMaxLegal c scored).map Prod.snd := by
  unfold hashingGuideBest lastMaxLegal
  rw [guideSelect_none, ← lastMaxLegal_foldr (legalScored c scored)]

end Dpar
